import Mathlib

/-!
Shallow embedding of the livenotes-sc-converter pattern-compilation and
measure-arithmetic core (TypeScript), together with proofs about it.

Source files embedded here:
- `src/phase2/ChordParser.ts` (`ChordParser.parse`)
- `src/phase2/PatternTransformer.ts` (`PatternTransformer.transform`,
  `parsePattern`, `parseLoop`, `parseMeasure`)
- `src/phase2/MeasureCounter.ts` (`MeasureCounter.count`)
- `src/phase4/PatternExpander.ts` (`PatternExpander.expand`)
- `src/phase3/TimeSignatureValidator.ts` (`TimeSignatureValidator.validate`)
- `src/phase3/LyricTimingValidator.ts` (`LyricTimingValidator.validate`)
- `src/index.ts` (the section final-measure computation of
  `SongCodeConverter.convert`, step 3.2)
- `src/phase4/PromptItemBuilder.ts` (`optimizePattern`, `arraysEqual`,
  `resolveRepeatSymbols`)

Errors are modelled by their machine-readable codes (`SongCodeError.code`),
e.g. "E3.1.1"; messages and positional context carry no logic. JavaScript
number arithmetic on beats is modelled with `Rat` (the values involved are
exact small rationals); all other arithmetic is integer arithmetic in the
source and is modelled with `Nat`/`Int`.
-/

/-- Error values are identified by their `SongCodeError.code` string. -/
abbrev ErrCode := String

/-- One slot within a measure: a chord `[base, extension]` (both strings in
the source, modelled as lists of characters), or one of the single-character
symbols `%`, `_`, `-`, `=` (strings in the source, single characters here). -/
inductive ChordPosition where
  | chord (base ext : List Char)
  | sym (c : Char)
deriving DecidableEq, Repr

/-- `Measure = ChordPosition[]` from `src/types/index.ts`. -/
abbrev Measure := List ChordPosition

/-- `PatternElement` from `src/types/index.ts`: a measure, `'loopStart'`,
`` `loopEnd:${number}` `` or `'newLine'`. -/
inductive PatternItem where
  | measure (m : Measure)
  | loopStart
  | loopEnd (n : Nat)
  | newLine
deriving DecidableEq, Repr

/-- `TimeSignature` from `src/types/index.ts`. -/
structure TimeSignature where
  numerator : Nat
  denominator : Nat
deriving DecidableEq, Repr

/-- Whitespace characters relevant to the source (JS `trim` / `\s` on the
characters that actually occur in pattern strings). -/
def isWs (c : Char) : Bool :=
  c = ' ' || c = '\t' || c = '\n' || c = '\r'

/-- JS `String.prototype.trim`: strip whitespace from both ends. -/
def jsTrim (l : List Char) : List Char :=
  ((l.dropWhile isWs).reverse.dropWhile isWs).reverse

/-- Helper for `wsWords`: `cur` is the (reversed) word being accumulated. -/
def wsWordsAux (cur : List Char) : List Char → List (List Char)
  | [] => if cur.isEmpty then [] else [cur.reverse]
  | c :: cs =>
    if isWs c then
      if cur.isEmpty then wsWordsAux [] cs else cur.reverse :: wsWordsAux [] cs
    else wsWordsAux (c :: cur) cs

/-- JS `split(/\s+/).filter(s => s !== '')`: whitespace-separated words. -/
def wsWords (l : List Char) : List (List Char) :=
  wsWordsAux [] l

/-- `parseInt(digits, 10)` on a nonempty all-digit string. -/
def digitsToNat (ds : List Char) : Nat :=
  ds.foldl (fun a c => a * 10 + (c.toNat - 48)) 0

namespace ChordParser

/-- `ChordParser.VALID_ROOTS`. -/
def validRoots : List Char := ['A', 'B', 'C', 'D', 'E', 'F', 'G']

/-- `ChordParser.VALID_ACCIDENTALS`. -/
def validAccidentals : List Char := ['#', 'b']

/-- `ChordParser.parse` from `src/phase2/ChordParser.ts`: root letter,
optional accidental, optional minor `m` (not consumed when followed by `a`),
remainder is the extension.  Returns `[base, extension]`. -/
def parse (chord : List Char) : Except ErrCode (List Char × List Char) :=
  let trimmed := jsTrim chord
  match trimmed with
  | [] => .error "E2.1.1"
  | root :: rest =>
    if root ∈ validRoots then
      -- accidental (# or b)
      let (acc, rest1) :=
        match rest with
        | a :: rs => if a ∈ validAccidentals then ([a], rs) else ([], rest)
        | [] => ([], ([] : List Char))
      -- minor 'm', but not if followed by 'a' (which would be 'maj')
      let (minor, rest2) :=
        match rest1 with
        | 'm' :: rs =>
          match rs with
          | 'a' :: _ => ([], rest1)
          | _ => (['m'], rs)
        | _ => ([], rest1)
      .ok (root :: acc ++ minor, rest2)
    else .error "E2.1.1"

end ChordParser

namespace PatternTransformer

/-- `item.startsWith('loopEnd:')` as used by `MeasureCounter`/`PatternExpander`
(only `loopEnd` items carry that prefix among emitted elements). -/
def isLoopEnd : PatternItem → Bool
  | .loopEnd _ => true
  | _ => false

/-- The bracket-matching scan of `PatternTransformer.parseLoop`: starting
just after an `[` with nesting depth `d ≥ 1`, split the remaining characters
into the interior of the bracket (up to the `]` that brings the depth back
to 0) and the characters after that `]`.  `none` when no matching `]`. -/
def splitLoop : List Char → Nat → Option (List Char × List Char)
  | [], _ => none
  | c :: cs, d =>
    if c = '[' then
      (splitLoop cs (d + 1)).map (fun p => (c :: p.1, p.2))
    else if c = ']' then
      if d = 1 then some ([], cs)
      else (splitLoop cs (d - 1)).map (fun p => (c :: p.1, p.2))
    else
      (splitLoop cs d).map (fun p => (c :: p.1, p.2))

/-- `PatternTransformer.parseMeasure`, applied to the collected raw text of
one measure (the characters up to the next `;`, `:`, `[` or end of string):
trim, recognize the whole-measure symbols `%`/`_`/`-`, otherwise split on
whitespace into positions where `=` is a remover that must follow at least
one chord (`E2.1.2`) and anything else is parsed by `ChordParser.parse`. -/
def parseMeasureContent (content : List Char) : Except ErrCode Measure :=
  let t := jsTrim content
  if t = ['%'] then .ok [.sym '%']
  else if t = ['_'] then .ok [.sym '_']
  else if t = ['-'] then .ok [.sym '-']
  else parseItems false (wsWords t)
where
  /-- The `for` loop over split items, with the `hasChord` flag. -/
  parseItems (hasChord : Bool) : List (List Char) → Except ErrCode Measure
    | [] => .ok []
    | w :: ws =>
      if w = ['='] then
        if hasChord then do
          let rest ← parseItems hasChord ws
          .ok (.sym '=' :: rest)
        else .error "E2.1.2"
      else do
        let c ← ChordParser.parse w
        let rest ← parseItems true ws
        .ok (.chord c.1 c.2 :: rest)

/-- Delimiters that end a measure's raw text. -/
def isMeasureDelim (c : Char) : Bool :=
  c = ';' || c = ':' || c = '['

/-- `PatternTransformer.parsePattern`, written with explicit fuel (each
recursive call is on a strictly shorter character list, so a fuel of
`length + 1` is always sufficient; the `"fuel"` branch is unreachable for
the initial fuel supplied by `parsePattern`). -/
def parsePatternF : Nat → List Char → Except ErrCode (List PatternItem)
  | 0, _ => .error "fuel"
  | _ + 1, [] => .ok []
  | fuel + 1, c :: cs =>
    if c = '[' then
      -- start of loop: find the matching ], recurse on the interior,
      -- then read the digits of the repeat count
      match splitLoop cs 1 with
      | none => .error "E2.1.3"
      | some (interior, after) => do
        let inner ← parsePatternF fuel interior
        let digits := after.takeWhile Char.isDigit
        if digits.isEmpty then .error "E2.1.4"
        else do
          let rest ← parsePatternF fuel (after.drop digits.length)
          .ok (.loopStart :: inner ++ .loopEnd (digitsToNat digits) :: rest)
    else if c = ':' then do
      let rest ← parsePatternF fuel cs
      .ok (.newLine :: rest)
    else if c = ';' then parsePatternF fuel cs
    else if c = ' ' || c = '\t' || c = '\n' then parsePatternF fuel cs
    else do
      -- measure: collect content until the next delimiter
      let m ← parseMeasureContent ((c :: cs).takeWhile (fun d => !isMeasureDelim d))
      let rest ← parsePatternF fuel ((c :: cs).dropWhile (fun d => !isMeasureDelim d))
      .ok (.measure m :: rest)

/-- `PatternTransformer.parsePattern` on a character list. -/
def parsePattern (cs : List Char) : Except ErrCode (List PatternItem) :=
  parsePatternF (cs.length + 1) cs

end PatternTransformer

namespace MeasureCounter

open PatternTransformer (isLoopEnd)

/-- `MeasureCounter.count` from `src/phase2/MeasureCounter.ts` on the element
list: measures count 1, `newLine` (and any stray `loopEnd`) count 0, and a
`loopStart` buffers the items up to the first `loopEnd`, recursively counts
the buffer, and multiplies by the repeat count; when no `loopEnd` follows,
the scan ends and the buffered items contribute nothing. -/
def count : List PatternItem → Nat
  | [] => 0
  | .measure _ :: rest => 1 + count rest
  | .newLine :: rest => count rest
  | .loopEnd _ :: rest => count rest
  | .loopStart :: rest =>
    match h : rest.dropWhile (fun x => !isLoopEnd x) with
    | .loopEnd n :: rest' =>
      count (rest.takeWhile (fun x => !isLoopEnd x)) * n + count rest'
    | _ => 0
termination_by l => l.length
decreasing_by
  all_goals simp only [List.length_cons]
  any_goals omega
  · have := (List.takeWhile_sublist (fun x => !isLoopEnd x) (l := rest)).length_le
    omega
  · have h2 := (List.dropWhile_sublist (fun x => !isLoopEnd x) (l := rest)).length_le
    rw [h] at h2
    simp only [List.length_cons] at h2
    omega

/-- `MeasureCounter.count` including the `if (!json) return 0` null check. -/
def countOpt : Option (List PatternItem) → Nat
  | none => 0
  | some l => count l

end MeasureCounter

namespace PatternTransformer

/-- The result record of `PatternTransformer.transform`. -/
structure TransformResult where
  json : Option (List PatternItem)
  measures : Nat
deriving DecidableEq, Repr

/-- `PatternTransformer.transform`: empty input yields a null pattern,
unbalanced global bracket counts fail `E2.1.3`, otherwise the trimmed string
is parsed and its measures counted (`countMeasures` in the source is a
verbatim copy of `MeasureCounter.count`). -/
def transform (pattern : List Char) : Except ErrCode TransformResult :=
  if (jsTrim pattern).isEmpty then .ok ⟨none, 0⟩
  else
    let trimmed := jsTrim pattern
    if trimmed.count '[' ≠ trimmed.count ']' then .error "E2.1.3"
    else do
      let items ← parsePattern trimmed
      let json := if items.isEmpty then none else some items
      .ok ⟨json, MeasureCounter.countOpt json⟩

end PatternTransformer

namespace PatternExpander

mutual

/-- `PatternExpander.expand` from `src/phase4/PatternExpander.ts`: measures
outside loops are copied through, `newLine` (and any stray marker) is
skipped, and `loopStart` switches to buffering mode. -/
def expand : List PatternItem → List Measure
  | [] => []
  | .measure m :: rest => m :: expand rest
  | .newLine :: rest => expand rest
  | .loopEnd _ :: rest => expand rest
  | .loopStart :: rest => expandLoop [] rest

/-- The inner `while` loop of `expand` after a `loopStart`: buffer measures
(skipping `newLine` and unexpected markers, which includes a nested
`loopStart`) until the first `loopEnd:N`, then emit N copies of the buffer
and resume the outer scan; if the items run out, the buffer is dropped. -/
def expandLoop (buf : List Measure) : List PatternItem → List Measure
  | [] => []
  | .loopEnd n :: rest => (List.replicate n buf).flatten ++ expand rest
  | .measure m :: rest => expandLoop (buf ++ [m]) rest
  | .newLine :: rest => expandLoop buf rest
  | .loopStart :: rest => expandLoop buf rest

end

end PatternExpander

namespace TimeSignatureValidator

/-- The remover (`=`) count of a measure. -/
def removerCount (m : Measure) : Nat :=
  (m.filter (fun item => item = .sym '=')).length

/-- `TimeSignatureValidator.validate` from `src/phase3/TimeSignatureValidator.ts`.
Beat arithmetic (JS numbers) is modelled in `ℚ`; counts and the `%` test are
integer operations in the source.  Returns the first thrown error code, or
`()` when the measure is accepted. -/
def validate (measure : Measure) (timeSignature : TimeSignature) : Except ErrCode Unit :=
  let totalBeats := timeSignature.numerator
  let positionCount := measure.length
  let removers := removerCount measure
  -- steps 2 and 3: the generic division check, then the remover check
  let step2 : Except ErrCode Unit :=
    if totalBeats % positionCount ≠ 0 then .error "E3.1.1"
    else
      let beatsPerPosition : ℚ := (totalBeats : ℚ) / (positionCount : ℚ)
      let beatsRemoved : ℚ := (removers : ℚ) * beatsPerPosition
      let beatsRemaining : ℚ := (totalBeats : ℚ) - beatsRemoved
      if beatsRemaining ≤ 0 then .error "E3.1.2" else .ok ()
  -- step 1: with removers present and a non-dividing position count, check
  -- whether the removers would eliminate all beats (prioritized E3.1.2)
  if 0 < removers ∧ totalBeats % positionCount ≠ 0 then
    let nonRemoverCount := positionCount - removers
    if 0 < nonRemoverCount then
      let beatsPerNonRemover : ℚ := (totalBeats : ℚ) / (nonRemoverCount : ℚ)
      let beatsRemoved : ℚ := (removers : ℚ) * beatsPerNonRemover
      if (totalBeats : ℚ) ≤ beatsRemoved then .error "E3.1.2" else step2
    else step2
  else step2

end TimeSignatureValidator

namespace SongCodeConverter

/-- The cut term of a `_cutStart`/`_cutEnd` modifier: the cut measures, plus
one more when a partial-measure cut (`beats > 0`) is present. -/
def cutTerm : Option (Nat × Nat) → Int
  | none => 0
  | some (measures, beats) => (measures : Int) + (if 0 < beats then 1 else 0)

/-- Step 3.2 of `SongCodeConverter.convert` (`src/index.ts`): the final
measure count of a section.  `rep = none` models an absent `_repeat`
modifier; JS truthiness makes `repeat: 0` behave like an absent modifier
(`if (section.repeat)`), while a present cut tuple is always applied. -/
def sectionFinalMeasures (patternMeasures : Nat) (rep : Option Nat)
    (cutStart cutEnd : Option (Nat × Nat)) (beforeMeasures afterMeasures : Nat) : Int :=
  let f0 : Int := patternMeasures
  let f1 : Int :=
    match rep with
    | none => f0
    | some r => if r = 0 then f0 else f0 * r
  let f2 : Int :=
    match cutStart with
    | none => f1
    | some (measures, beats) => (f1 - measures) - (if 0 < beats then 1 else 0)
  let f3 : Int :=
    match cutEnd with
    | none => f2
    | some (measures, beats) => (f2 - measures) - (if 0 < beats then 1 else 0)
  f3 + beforeMeasures + afterMeasures

end SongCodeConverter

namespace LyricTimingValidator

/-- The regex match `lyric.match(/_(\d+)$/)`: `some n` when the line ends
with an underscore followed by one or more digits (whose value is `n`). -/
def timingMatch (l : List Char) : Option Nat :=
  let r := l.reverse
  let rds := r.takeWhile Char.isDigit
  if rds.isEmpty then none
  else
    match r.drop rds.length with
    | '_' :: _ => some (digitsToNat rds.reverse)
    | _ => none

/-- The test `/_[^\d]/.test(lyric)`: some underscore is immediately followed
by a non-digit character. -/
def hasUnderscoreNonDigit : List Char → Bool
  | '_' :: c :: rest => !c.isDigit || hasUnderscoreNonDigit (c :: rest)
  | _ :: rest => hasUnderscoreNonDigit rest
  | [] => false

/-- `/_[^\d]/.test(lyric) || lyric.endsWith('_')`: the bad-format check made
when the timing regex does not match. -/
def badFormat (l : List Char) : Bool :=
  hasUnderscoreNonDigit l || l.getLast? = some '_'

/-- The summing `for` loop of `LyricTimingValidator.validate`: accumulate the
per-line timing values, failing `E3.4.2`/`E3.4.1` on a non-matching line and
`E3.4.3` on a non-positive value. -/
def sumLines (acc : Nat) : List (List Char) → Except ErrCode Nat
  | [] => .ok acc
  | l :: rest =>
    match timingMatch l with
    | none => if badFormat l then .error "E3.4.2" else .error "E3.4.1"
    | some n => if n = 0 then .error "E3.4.3" else sumLines (acc + n) rest

/-- `LyricTimingValidator.validate` from `src/phase3/LyricTimingValidator.ts`:
sum the `_N` markers of all lines, then fail `E3.4.4` when the sum differs
from the expected total. -/
def validate (lyrics : List (List Char)) (totalMeasures : Int) : Except ErrCode Unit := do
  let s ← sumLines 0 lyrics
  if (s : Int) ≠ totalMeasures then .error "E3.4.4" else .ok ()

end LyricTimingValidator

namespace PromptItemBuilder

/-- The per-position comparison inside `PromptItemBuilder.arraysEqual`
(`src/phase4/PromptItemBuilder.ts`): two symbol strings compare by string
equality, two chord tuples compare component-wise (`[0]`, then `[1]`; the
tuples always have length 2), a string and a tuple are never equal. -/
def chordPosEq : ChordPosition → ChordPosition → Bool
  | .sym a, .sym b => a = b
  | .chord b1 e1, .chord b2 e2 => b1 = b2 && e1 = e2
  | _, _ => false

/-- The per-measure comparison inside `arraysEqual`: equal lengths and
position-wise `chordPosEq`. -/
def measureEq (a b : Measure) : Bool :=
  a.length = b.length && (a.zip b).all fun p => chordPosEq p.1 p.2

/-- `PromptItemBuilder.arraysEqual`: deep equality of measure lists. -/
def arraysEqual (a b : List Measure) : Bool :=
  a.length = b.length && (a.zip b).all fun p => measureEq p.1 p.2

/-- The `while` loop of `PromptItemBuilder.optimizePattern`: while the
working list has even length > 1 and its halves are deep-equal, keep the
first half and double the multiplier. -/
def optimizeGo (repeats : Nat) (pattern : List Measure) : Nat × List Measure :=
  if 1 < pattern.length ∧ pattern.length % 2 = 0 then
    let halfLength := pattern.length / 2
    let firstHalf := pattern.take halfLength
    let secondHalf := pattern.drop halfLength
    if arraysEqual firstHalf secondHalf then optimizeGo (repeats * 2) firstHalf
    else (repeats, pattern)
  else (repeats, pattern)
termination_by pattern.length
decreasing_by
  simp only [List.length_take]
  omega

/-- `PromptItemBuilder.optimizePattern` (Substep 4.3.6). -/
def optimizePattern (measures : List Measure) : Nat × List Measure :=
  optimizeGo 1 measures

/-- `chord === '%'` from `resolveRepeatSymbols`. -/
def isRepeatSym : ChordPosition → Bool
  | .sym '%' => true
  | _ => false

/-- The inner `for` loop of `PromptItemBuilder.resolveRepeatSymbols` over one
measure's positions.  `prevM` is `previousMeasure`, `prevC` is
`previousChordInMeasure` (set only by non-`%` positions).  A `%` is replaced
by `prevC` when set, otherwise by the whole non-empty `prevM`, otherwise the
resolution fails with `E4.1.1`. -/
def resolvePositions (prevM : Option Measure) (prevC : Option ChordPosition) :
    List ChordPosition → Except ErrCode (List ChordPosition)
  | [] => .ok []
  | c :: cs =>
    if isRepeatSym c then
      match prevC with
      | some p => do
        let rest ← resolvePositions prevM prevC cs
        .ok (p :: rest)
      | none =>
        match prevM with
        | some pm =>
          if 0 < pm.length then do
            let rest ← resolvePositions prevM prevC cs
            .ok (pm ++ rest)
          else .error "E4.1.1"
        | none => .error "E4.1.1"
    else do
      let rest ← resolvePositions prevM (some c) cs
      .ok (c :: rest)

/-- The outer `for` loop of `resolveRepeatSymbols`: resolve each measure,
updating `previousMeasure` to the resolved measure when it is non-empty. -/
def resolveMeasures (prevM : Option Measure) : List Measure → Except ErrCode (List Measure)
  | [] => .ok []
  | m :: ms => do
    let nm ← resolvePositions prevM none m
    let rest ← resolveMeasures (if 0 < nm.length then some nm else prevM) ms
    .ok (nm :: rest)

/-- `PromptItemBuilder.resolveRepeatSymbols` from
`src/phase4/PromptItemBuilder.ts`. -/
def resolveRepeatSymbols (measures : List Measure) : Except ErrCode (List Measure) :=
  resolveMeasures none measures

end PromptItemBuilder

/-! ### Helper lemmas -/

theorem dropWhile_head_false {α : Type} {p : α → Bool} {l : List α} {x : α} {xs : List α}
    (h : l.dropWhile p = x :: xs) : p x = false := by
  induction l with
  | nil => simp at h
  | cons a as ih =>
    by_cases hp : p a
    · rw [List.dropWhile_cons_of_pos hp] at h
      exact ih h
    · rw [List.dropWhile_cons_of_neg hp] at h
      cases h
      simpa using hp

namespace MeasureCounter

open PatternTransformer (isLoopEnd)

theorem count_nil : count [] = 0 := by simp [count]

theorem count_measure (m : Measure) (rest : List PatternItem) :
    count (.measure m :: rest) = 1 + count rest := by simp [count]

theorem count_newLine (rest : List PatternItem) :
    count (.newLine :: rest) = count rest := by simp [count]

theorem count_loopEnd (n : Nat) (rest : List PatternItem) :
    count (.loopEnd n :: rest) = count rest := by simp [count]

theorem count_loopStart_closed (rest rest' : List PatternItem) (n : Nat)
    (h : rest.dropWhile (fun x => !isLoopEnd x) = .loopEnd n :: rest') :
    count (.loopStart :: rest) =
      count (rest.takeWhile (fun x => !isLoopEnd x)) * n + count rest' := by
  rw [count]
  split
  · rename_i n' rest'' heq
    rw [h] at heq
    cases heq
    rfl
  · rename_i hne
    exact absurd h (by simpa using hne _ _)

theorem count_loopStart_nil (rest : List PatternItem)
    (h : rest.dropWhile (fun x => !isLoopEnd x) = []) :
    count (.loopStart :: rest) = 0 := by
  rw [count]
  split
  · rename_i n' rest'' heq
    rw [h] at heq
    cases heq
  · rfl

/-- Unfolding of `count` at a `loopStart` with the buffer split made by
`takeWhile`/`dropWhile` exposed as a plain (non-dependent) match. -/
theorem count_loopStart (rest : List PatternItem) :
    count (.loopStart :: rest) =
      match rest.dropWhile (fun x => !isLoopEnd x) with
      | .loopEnd n :: rest' => count (rest.takeWhile (fun x => !isLoopEnd x)) * n + count rest'
      | _ => 0 := by
  cases hd : rest.dropWhile (fun x => !isLoopEnd x) with
  | nil => rw [count_loopStart_nil rest hd]
  | cons x xs =>
    have hx := dropWhile_head_false hd
    cases x with
    | loopEnd n => rw [count_loopStart_closed rest xs n hd]
    | measure m => simp [isLoopEnd] at hx
    | loopStart => simp [isLoopEnd] at hx
    | newLine => simp [isLoopEnd] at hx

end MeasureCounter
theorem takeWhile_append_all {α : Type} {p : α → Bool} {l1 : List α}
    (h : ∀ x ∈ l1, p x = true) (l2 : List α) :
    (l1 ++ l2).takeWhile p = l1 ++ l2.takeWhile p := by
  induction l1 with
  | nil => simp
  | cons a as ih =>
    have ha := h a (by simp)
    simp only [List.cons_append, List.takeWhile_cons, ha, if_true]
    rw [ih (fun x hx => h x (by simp [hx]))]

theorem dropWhile_append_all {α : Type} {p : α → Bool} {l1 : List α}
    (h : ∀ x ∈ l1, p x = true) (l2 : List α) :
    (l1 ++ l2).dropWhile p = l2.dropWhile p := by
  induction l1 with
  | nil => simp
  | cons a as ih =>
    have ha := h a (by simp)
    simp only [List.cons_append, List.dropWhile_cons, ha, if_true]
    exact ih (fun x hx => h x (by simp [hx]))

/-- A pattern element that is allowed inside the body of a depth-1 loop:
a measure or a line break. -/
def PlainItem (x : PatternItem) : Prop :=
  (∃ m, x = .measure m) ∨ x = .newLine

/-- The measures of a loop body, in order. -/
def bodyMeasures (body : List PatternItem) : List Measure :=
  body.filterMap fun x => match x with | .measure m => some m | _ => none

theorem plain_not_isLoopEnd {x : PatternItem} (h : PlainItem x) :
    (!PatternTransformer.isLoopEnd x) = true := by
  rcases h with ⟨m, rfl⟩ | rfl <;> simp [PatternTransformer.isLoopEnd]

namespace PatternExpander

theorem expand_nil : expand [] = [] := rfl

theorem expand_measure (m : Measure) (rest : List PatternItem) :
    expand (.measure m :: rest) = m :: expand rest := rfl

theorem expand_newLine (rest : List PatternItem) :
    expand (.newLine :: rest) = expand rest := rfl

theorem expand_loopEnd (n : Nat) (rest : List PatternItem) :
    expand (.loopEnd n :: rest) = expand rest := rfl

theorem expand_loopStart (rest : List PatternItem) :
    expand (.loopStart :: rest) = expandLoop [] rest := rfl

theorem expandLoop_nil (buf : List Measure) : expandLoop buf [] = [] := rfl

theorem expandLoop_loopEnd (buf : List Measure) (n : Nat) (rest : List PatternItem) :
    expandLoop buf (.loopEnd n :: rest) = (List.replicate n buf).flatten ++ expand rest := rfl

theorem expandLoop_measure (buf : List Measure) (m : Measure) (rest : List PatternItem) :
    expandLoop buf (.measure m :: rest) = expandLoop (buf ++ [m]) rest := rfl

theorem expandLoop_newLine (buf : List Measure) (rest : List PatternItem) :
    expandLoop buf (.newLine :: rest) = expandLoop buf rest := rfl

theorem expandLoop_loopStart (buf : List Measure) (rest : List PatternItem) :
    expandLoop buf (.loopStart :: rest) = expandLoop buf rest := rfl

theorem expandLoop_measures (X : List Measure) (buf : List Measure) (rest : List PatternItem) :
    expandLoop buf (X.map .measure ++ rest) = expandLoop (buf ++ X) rest := by
  induction X generalizing buf with
  | nil => simp
  | cons m ms ih =>
    rw [List.map_cons, List.cons_append, expandLoop_measure, ih (buf ++ [m])]
    simp

theorem expandLoop_plain (body : List PatternItem) (h : ∀ x ∈ body, PlainItem x)
    (buf : List Measure) (rest : List PatternItem) :
    expandLoop buf (body ++ rest) = expandLoop (buf ++ bodyMeasures body) rest := by
  induction body generalizing buf with
  | nil => simp [bodyMeasures]
  | cons x xs ih =>
    rcases h x (by simp) with ⟨m, rfl⟩ | rfl
    · rw [List.cons_append, expandLoop_measure, ih (fun y hy => h y (by simp [hy])) (buf ++ [m])]
      congr 1
      simp [bodyMeasures]
    · rw [List.cons_append, expandLoop_newLine, ih (fun y hy => h y (by simp [hy])) buf]
      simp [bodyMeasures]

end PatternExpander

theorem count_plain (body : List PatternItem) (h : ∀ x ∈ body, PlainItem x) :
    MeasureCounter.count body = (bodyMeasures body).length := by
  induction body with
  | nil => simp [MeasureCounter.count_nil, bodyMeasures]
  | cons x xs ih =>
    rcases h x (by simp) with ⟨m, rfl⟩ | rfl
    · rw [MeasureCounter.count_measure, ih (fun y hy => h y (by simp [hy]))]
      simp [bodyMeasures, Nat.add_comm]
    · rw [MeasureCounter.count_newLine, ih (fun y hy => h y (by simp [hy]))]
      simp [bodyMeasures]

/-- Compiled patterns without nested loops: sequences of measures, line
breaks, and loops whose bodies hold only measures and line breaks. -/
inductive NonNested : List PatternItem → Prop
  | nil : NonNested []
  | measure (m : Measure) (rest : List PatternItem) :
      NonNested rest → NonNested (.measure m :: rest)
  | newLine (rest : List PatternItem) :
      NonNested rest → NonNested (.newLine :: rest)
  | loop (body : List PatternItem) (n : Nat) (rest : List PatternItem) :
      (∀ x ∈ body, PlainItem x) → NonNested rest →
      NonNested (.loopStart :: (body ++ .loopEnd n :: rest))

theorem count_eq_expand_length {l : List PatternItem} (h : NonNested l) :
    MeasureCounter.count l = (PatternExpander.expand l).length := by
  induction h with
  | nil => simp [MeasureCounter.count_nil, PatternExpander.expand_nil]
  | measure m rest _ ih =>
    rw [MeasureCounter.count_measure, PatternExpander.expand_measure]
    simp only [List.length_cons, ih]
    omega
  | newLine rest _ ih =>
    rw [MeasureCounter.count_newLine, PatternExpander.expand_newLine]
    exact ih
  | loop body n rest hbody _ ih =>
    have hall : ∀ x ∈ body, (fun x => !PatternTransformer.isLoopEnd x) x = true :=
      fun x hx => plain_not_isLoopEnd (hbody x hx)
    have hdrop : (body ++ .loopEnd n :: rest).dropWhile (fun x => !PatternTransformer.isLoopEnd x)
        = .loopEnd n :: rest := by
      rw [dropWhile_append_all hall]
      simp [List.dropWhile_cons, PatternTransformer.isLoopEnd]
    have htake : (body ++ .loopEnd n :: rest).takeWhile (fun x => !PatternTransformer.isLoopEnd x)
        = body := by
      rw [takeWhile_append_all hall]
      simp [List.takeWhile_cons, PatternTransformer.isLoopEnd]
    rw [MeasureCounter.count_loopStart_closed _ _ _ hdrop, htake]
    rw [PatternExpander.expand_loopStart,
      PatternExpander.expandLoop_plain body hbody [] (.loopEnd n :: rest),
      PatternExpander.expandLoop_loopEnd]
    simp only [List.length_append, List.nil_append]
    have hrep : ((List.replicate n (bodyMeasures body)).flatten).length
        = n * (bodyMeasures body).length := by
      simp [List.length_flatten, List.map_replicate, List.sum_replicate]
    rw [hrep, ih, count_plain body hbody]
    ring

theorem expand_nested (X Y : List Measure) (k n : Nat) :
    PatternExpander.expand
        (.loopStart :: (X.map .measure ++ .loopStart :: (Y.map .measure ++ [.loopEnd k, .loopEnd n])))
      = (List.replicate k (X ++ Y)).flatten := by
  rw [PatternExpander.expand_loopStart, PatternExpander.expandLoop_measures,
    PatternExpander.expandLoop_loopStart, PatternExpander.expandLoop_measures,
    List.nil_append]
  rw [PatternExpander.expandLoop_loopEnd, PatternExpander.expand_loopEnd,
    PatternExpander.expand_nil, List.append_nil]

/-! ### Claim C1 -/

/-- C1, counterexample: the claimed equality
`MeasureCounter.count(compile(p)) = length(PatternExpander.expand(compile(p)))`
fails on the valid nested-loop pattern string `"[A [G]2]3"`.  It compiles
successfully (so it is a valid pattern string) to the element list
`[loopStart, [A], loopStart, [G], loopEnd:2, loopEnd:3]`, on which the
counter yields 2 while the expander yields 4 flat measures. -/
theorem claim1_counterexample :
    PatternTransformer.transform "[A [G]2]3".toList =
      .ok ⟨some [.loopStart, .measure [.chord ['A'] []], .loopStart,
        .measure [.chord ['G'] []], .loopEnd 2, .loopEnd 3], 2⟩
    ∧ MeasureCounter.count [.loopStart, .measure [.chord ['A'] []], .loopStart,
        .measure [.chord ['G'] []], .loopEnd 2, .loopEnd 3] = 2
    ∧ (PatternExpander.expand [.loopStart, .measure [.chord ['A'] []], .loopStart,
        .measure [.chord ['G'] []], .loopEnd 2, .loopEnd 3]).length = 4
    ∧ (2 : Nat) ≠ 4 := by
  have hb : MeasureCounter.count [.loopStart, .measure [.chord ['A'] []], .loopStart,
      .measure [.chord ['G'] []], .loopEnd 2, .loopEnd 3] = 2 := by
    simp [MeasureCounter.count_nil, MeasureCounter.count_measure, MeasureCounter.count_newLine,
      MeasureCounter.count_loopEnd, MeasureCounter.count_loopStart,
      List.dropWhile, List.takeWhile, PatternTransformer.isLoopEnd]
  refine ⟨?_, hb, rfl, by decide⟩
  calc PatternTransformer.transform "[A [G]2]3".toList
      = .ok ⟨some [.loopStart, .measure [.chord ['A'] []], .loopStart,
          .measure [.chord ['G'] []], .loopEnd 2, .loopEnd 3],
          MeasureCounter.count [.loopStart, .measure [.chord ['A'] []], .loopStart,
            .measure [.chord ['G'] []], .loopEnd 2, .loopEnd 3]⟩ := rfl
    _ = _ := by rw [hb]

/-- C1, amended: for every compiled pattern without nested loops (a sequence
of measures, line breaks, and loops whose bodies hold only measures and line
breaks), the measure count computed by `MeasureCounter.count` equals the
length of the flat measure list produced by `PatternExpander.expand`.  (The
original claim included nested loops; `claim1_counterexample` shows the two
walks disagree there.) -/
theorem claim1_count_eq_expand_length {l : List PatternItem} (h : NonNested l) :
    MeasureCounter.count l = (PatternExpander.expand l).length :=
  count_eq_expand_length h

/-- Witness for `claim1_count_eq_expand_length` at `"[A;G]3"`-style input
`[loopStart, [A], [G], loopEnd:3]`. -/
theorem claim1_witness :
    MeasureCounter.count [.loopStart, .measure [.chord ['A'] []],
        .measure [.chord ['G'] []], .loopEnd 3]
      = (PatternExpander.expand [.loopStart, .measure [.chord ['A'] []],
        .measure [.chord ['G'] []], .loopEnd 3]).length :=
  claim1_count_eq_expand_length
    (NonNested.loop [.measure [.chord ['A'] []], .measure [.chord ['G'] []]] 3 []
      (by
        intro x hx
        simp only [List.mem_cons, List.not_mem_nil, or_false] at hx
        rcases hx with rfl | rfl
        · exact Or.inl ⟨_, rfl⟩
        · exact Or.inl ⟨_, rfl⟩)
      NonNested.nil)

/-! ### Claim C2 -/

/-- C2, counterexample: on the nested compiled pattern
`[loopStart, [A], loopStart, [G], loopEnd:2, loopEnd:3]`
(`loopStart, X-measures, loopStart, Y-measures, loopEnd(k=2), loopEnd(n=3)`
with `X = [[A]]`, `Y = [[G]]`), `PatternExpander.expand` produces
`[[A],[G],[A],[G]]` — 2 copies of `X ++ Y` — and not the
`n = 3` copies of (`X` followed by `k = 2` copies of `Y`),
`[[A],[G],[G],[A],[G],[G],[A],[G],[G]]`, that the claim requires. -/
theorem claim2_counterexample :
    PatternExpander.expand [.loopStart, .measure [.chord ['A'] []], .loopStart,
        .measure [.chord ['G'] []], .loopEnd 2, .loopEnd 3]
      = [[.chord ['A'] []], [.chord ['G'] []], [.chord ['A'] []], [.chord ['G'] []]]
    ∧ ([[.chord ['A'] []], [.chord ['G'] []], [.chord ['A'] []], [.chord ['G'] []]] : List Measure)
      ≠ [[.chord ['A'] []], [.chord ['G'] []], [.chord ['G'] []],
         [.chord ['A'] []], [.chord ['G'] []], [.chord ['G'] []],
         [.chord ['A'] []], [.chord ['G'] []], [.chord ['G'] []]] := by
  exact ⟨rfl, by decide⟩

/-- C2, amended: `PatternExpander.expand` does *not* recursively expand inner
loops.  After a `loopStart` it buffers every measure (skipping the inner
`loopStart` marker as an unexpected item) up to the *first* `loopEnd`, whose
count applies to the whole buffer, and the outer `loopEnd` is then skipped:
a nested pattern `loopStart, X-measures, loopStart, Y-measures, loopEnd(k),
loopEnd(n)` expands to `k` consecutive copies of (`X` followed by `Y`),
independently of `n`. -/
theorem claim2_expand_nested (X Y : List Measure) (k n : Nat) :
    PatternExpander.expand
        (.loopStart :: (X.map .measure ++ .loopStart :: (Y.map .measure ++ [.loopEnd k, .loopEnd n])))
      = (List.replicate k (X ++ Y)).flatten :=
  expand_nested X Y k n
theorem exceptBind_eq_ok {ε α β : Type} {x : Except ε α} {f : α → Except ε β} {b : β} :
    (x >>= f) = .ok b ↔ ∃ a, x = .ok a ∧ f a = .ok b := by
  cases x <;> simp [Bind.bind, Except.bind]

namespace PromptItemBuilder

theorem resolvePositions_nil (prevM : Option Measure) (prevC : Option ChordPosition) :
    resolvePositions prevM prevC [] = .ok [] := rfl

theorem resolvePositions_cons_nonrep (prevM : Option Measure) (prevC : Option ChordPosition)
    (c : ChordPosition) (cs : List ChordPosition) (hc : isRepeatSym c = false) :
    resolvePositions prevM prevC (c :: cs)
      = resolvePositions prevM (some c) cs >>= fun rest => .ok (c :: rest) := by
  simp only [resolvePositions, hc, Bool.false_eq_true, if_false]

theorem resolvePositions_cons_rep_prevC (prevM : Option Measure) (p : ChordPosition)
    (cs : List ChordPosition) :
    resolvePositions prevM (some p) (.sym '%' :: cs)
      = resolvePositions prevM (some p) cs >>= fun rest => .ok (p :: rest) := rfl

theorem resolvePositions_cons_rep_fallback (pm : Measure) (cs : List ChordPosition)
    (hpm : 0 < pm.length) :
    resolvePositions (some pm) none (.sym '%' :: cs)
      = resolvePositions (some pm) none cs >>= fun rest => .ok (pm ++ rest) := by
  simp only [resolvePositions, isRepeatSym, if_true, hpm]

theorem resolvePositions_cons_rep_noPrev (cs : List ChordPosition) :
    resolvePositions none none (.sym '%' :: cs) = .error "E4.1.1" := rfl

theorem resolvePositions_nonrep_last (prevM : Option Measure) (prevC : Option ChordPosition)
    (xs : List ChordPosition) (hne : xs ≠ [])
    (hx : ∀ x ∈ xs, isRepeatSym x = false) :
    resolvePositions prevM prevC (xs ++ [.sym '%']) = .ok (xs ++ [xs.getLast hne]) := by
  induction xs generalizing prevC with
  | nil => exact absurd rfl hne
  | cons x xs ih =>
    have hxx : isRepeatSym x = false := hx x (by simp)
    rw [List.cons_append, resolvePositions_cons_nonrep prevM prevC x _ hxx]
    cases xs with
    | nil =>
      simp only [List.nil_append]
      rw [resolvePositions_cons_rep_prevC prevM x [], resolvePositions_nil]
      simp [Bind.bind, Except.bind]
    | cons y ys =>
      rw [ih (some x) (by simp) (fun z hz => hx z (List.mem_cons_of_mem x hz))]
      simp [Bind.bind, Except.bind, List.getLast_cons]

theorem resolvePositions_filter_sublist (l : List ChordPosition) :
    ∀ (prevM : Option Measure) (prevC : Option ChordPosition) (r : List ChordPosition),
    resolvePositions prevM prevC l = .ok r →
    List.Sublist (l.filter fun p => !isRepeatSym p) r := by
  induction l with
  | nil =>
    intro prevM prevC r h
    rw [resolvePositions_nil] at h
    cases h
    simp
  | cons c cs ih =>
    intro prevM prevC r h
    by_cases hc : isRepeatSym c
    · have hfil : ((c :: cs).filter fun p => !isRepeatSym p)
          = cs.filter fun p => !isRepeatSym p := by
        simp [List.filter_cons, hc]
      rw [hfil]
      have hrep : c = ChordPosition.sym '%' := by
        cases c with
        | chord b e => simp [isRepeatSym] at hc
        | sym s =>
          simp only [isRepeatSym] at hc
          split at hc
          · rename_i heq
            cases heq
            rfl
          · cases hc
      subst hrep
      cases prevC with
      | some p =>
        rw [resolvePositions_cons_rep_prevC] at h
        obtain ⟨a, ha, hb⟩ := exceptBind_eq_ok.mp h
        cases hb
        exact (ih prevM (some p) a ha).cons p
      | none =>
        cases prevM with
        | some pm =>
          by_cases hl : 0 < pm.length
          · rw [resolvePositions_cons_rep_fallback pm cs hl] at h
            obtain ⟨a, ha, hb⟩ := exceptBind_eq_ok.mp h
            cases hb
            exact (ih (some pm) none a ha).trans (List.sublist_append_right pm a)
          · simp only [resolvePositions, isRepeatSym, if_true, hl, if_false] at h
            simp at h
        | none =>
          rw [resolvePositions_cons_rep_noPrev] at h
          cases h
    · rw [resolvePositions_cons_nonrep prevM prevC c cs (by simpa using hc)] at h
      obtain ⟨a, ha, hb⟩ := exceptBind_eq_ok.mp h
      cases hb
      have hfil : ((c :: cs).filter fun p => !isRepeatSym p)
          = c :: (cs.filter fun p => !isRepeatSym p) := by
        simp [List.filter_cons, hc]
      rw [hfil]
      exact (ih prevM (some c) a ha).cons₂ c

theorem resolveMeasures_spec (ms : List Measure) :
    ∀ (prevM : Option Measure) (rs : List Measure),
    resolveMeasures prevM ms = .ok rs →
    rs.length = ms.length ∧
      List.Forall₂ (fun m r => List.Sublist (m.filter fun p => !isRepeatSym p) r) ms rs := by
  induction ms with
  | nil =>
    intro prevM rs h
    simp only [resolveMeasures] at h
    cases h
    exact ⟨rfl, List.Forall₂.nil⟩
  | cons m ms ih =>
    intro prevM rs h
    rw [show resolveMeasures prevM (m :: ms)
        = (resolvePositions prevM none m) >>= (fun nm =>
            (resolveMeasures (if 0 < nm.length then some nm else prevM) ms) >>= fun rest =>
              .ok (nm :: rest)) from rfl] at h
    obtain ⟨nm, hnm, h2⟩ := exceptBind_eq_ok.mp h
    obtain ⟨rest, hrest, h3⟩ := exceptBind_eq_ok.mp h2
    cases h3
    obtain ⟨hlen, hfa⟩ := ih _ rest hrest
    exact ⟨by simp [hlen], List.Forall₂.cons (resolvePositions_filter_sublist m prevM none nm hnm) hfa⟩

end PromptItemBuilder

/-! ### Claim C3 -/

/-- C3, counterexample: in the measure `[%, %]` after `[A, G]`, the second
`%` does have an immediately preceding resolved position in the same measure
(the `G` ending the splice produced by the first `%`), yet the code resolves
it by splicing the whole previous measure again: the result is
`[A, G, A, G]`, not the `[A, G, G]` the claim requires.  (The tracked
previous position is only set by explicitly written non-`%` positions.) -/
theorem claim3_counterexample :
    PromptItemBuilder.resolveRepeatSymbols
        [[.chord ['A'] [], .chord ['G'] []], [.sym '%', .sym '%']]
      = .ok [[.chord ['A'] [], .chord ['G'] []],
             [.chord ['A'] [], .chord ['G'] [], .chord ['A'] [], .chord ['G'] []]]
    ∧ ([.chord ['A'] [], .chord ['G'] [], .chord ['A'] [], .chord ['G'] []] : Measure)
      ≠ [.chord ['A'] [], .chord ['G'] [], .chord ['G'] []] := by
  exact ⟨rfl, by decide⟩

/-- C3, amended: a `%` is replaced by the most recent *explicitly written*
(non-`%`) resolved position of the same measure when one exists; a `%` with
no preceding non-`%` position in its measure falls back to the entire
previous measure's resolved content (so consecutive leading `%`s each splice
the whole previous measure); in particular `[A, %]` resolves to `[A, A]`,
and `[%]` with no prior measure raises `E4.1.1` (RepeatWithNoPrior). -/
theorem claim3_repeat_resolution :
    (∀ (prevM : Option Measure) (xs : List ChordPosition) (hne : xs ≠ []),
      (∀ x ∈ xs, PromptItemBuilder.isRepeatSym x = false) →
      PromptItemBuilder.resolvePositions prevM none (xs ++ [.sym '%'])
        = .ok (xs ++ [xs.getLast hne]))
    ∧ (∀ (pm : Measure) (cs : List ChordPosition), 0 < pm.length →
      PromptItemBuilder.resolvePositions (some pm) none (.sym '%' :: cs)
        = PromptItemBuilder.resolvePositions (some pm) none cs >>= fun rest => .ok (pm ++ rest))
    ∧ PromptItemBuilder.resolveRepeatSymbols [[.chord ['A'] [], .sym '%']]
        = .ok [[.chord ['A'] [], .chord ['A'] []]]
    ∧ PromptItemBuilder.resolveRepeatSymbols [[.sym '%']] = .error "E4.1.1" := by
  refine ⟨?_, ?_, rfl, rfl⟩
  · intro prevM xs hne hx
    exact PromptItemBuilder.resolvePositions_nonrep_last prevM none xs hne hx
  · intro pm cs hpm
    exact PromptItemBuilder.resolvePositions_cons_rep_fallback pm cs hpm

/-- Witness for `claim3_repeat_resolution`: its universally quantified parts
applied at concrete inputs (`[D, %]` after `[G]`, and a leading `%` before
`C` after previous measure `[G]`). -/
theorem claim3_witness :
    PromptItemBuilder.resolvePositions (some [.chord ['G'] []]) none
        ([.chord ['D'] []] ++ [.sym '%'])
      = .ok ([.chord ['D'] []] ++ [.chord ['D'] []])
    ∧ PromptItemBuilder.resolvePositions (some [.chord ['G'] []]) none
        (.sym '%' :: [.chord ['C'] []])
      = PromptItemBuilder.resolvePositions (some [.chord ['G'] []]) none [.chord ['C'] []]
          >>= fun rest => .ok ([.chord ['G'] []] ++ rest) := by
  constructor
  · exact claim3_repeat_resolution.1 (some [.chord ['G'] []]) [.chord ['D'] []]
      (by decide) (by decide)
  · exact claim3_repeat_resolution.2.1 [.chord ['G'] []] [.chord ['C'] []] (by decide)

/-! ### Claim C10 -/

/-- C10: when `resolveRepeatSymbols` succeeds, the output has exactly as many
measures as the input, and within each measure every non-`%` position is
copied through (in order, unchanged) into the corresponding output measure:
the input measure's non-`%` positions form a sublist of the output measure. -/
theorem claim10_resolve_preserves (ms rs : List Measure)
    (h : PromptItemBuilder.resolveRepeatSymbols ms = .ok rs) :
    rs.length = ms.length ∧
      List.Forall₂
        (fun m r => List.Sublist (m.filter fun p => !PromptItemBuilder.isRepeatSym p) r)
        ms rs :=
  PromptItemBuilder.resolveMeasures_spec ms none rs h

/-- Witness for `claim10_resolve_preserves` at `[[A], [%], [A, D]]`. -/
theorem claim10_witness :
    ([[.chord ['A'] []], [.chord ['A'] []], [.chord ['A'] [], .chord ['D'] []]] : List Measure).length
        = ([[.chord ['A'] []], [.sym '%'], [.chord ['A'] [], .chord ['D'] []]] : List Measure).length
    ∧ List.Forall₂
        (fun m r => List.Sublist (m.filter fun p => !PromptItemBuilder.isRepeatSym p) r)
        [[.chord ['A'] []], [.sym '%'], [.chord ['A'] [], .chord ['D'] []]]
        [[.chord ['A'] []], [.chord ['A'] []], [.chord ['A'] [], .chord ['D'] []]] :=
  claim10_resolve_preserves
    [[.chord ['A'] []], [.sym '%'], [.chord ['A'] [], .chord ['D'] []]]
    [[.chord ['A'] []], [.chord ['A'] []], [.chord ['A'] [], .chord ['D'] []]]
    rfl

/-! ### Claim C4 -/

/-- C4: for a measure with `R > 0` removers whose position count `P` does not
divide the numerator `N`, with `P - R > 0` and
`R * (N / (P - R)) ≥ N` (beat arithmetic in `ℚ`, as the source computes with
JS numbers), the validator fails with `E3.1.2` (AllBeatsRemoved) — this
check runs before the generic `E3.1.1` (DivisionError) check. -/
theorem claim4_allBeatsRemoved (m : Measure) (N d : Nat)
    (hR : 0 < TimeSignatureValidator.removerCount m)
    (hmod : N % m.length ≠ 0)
    (hnr : 0 < m.length - TimeSignatureValidator.removerCount m)
    (hrem : (N : ℚ) ≤ (TimeSignatureValidator.removerCount m : ℚ) *
      ((N : ℚ) / ((m.length - TimeSignatureValidator.removerCount m : Nat) : ℚ))) :
    TimeSignatureValidator.validate m ⟨N, d⟩ = .error "E3.1.2" := by
  simp only [TimeSignatureValidator.validate]
  rw [if_pos ⟨hR, hmod⟩, if_pos hnr, if_pos hrem]

/-- Witness for `claim4_allBeatsRemoved`: the measure `[chord, =, =]` under
4/4 (`P = 3`, `R = 2`, `4 % 3 ≠ 0`, `2 × (4 / 1) = 8 ≥ 4`) is rejected with
`E3.1.2` (AllBeatsRemoved), not `E3.1.1`. -/
theorem claim4_witness :
    TimeSignatureValidator.validate [.chord ['A'] [], .sym '=', .sym '='] ⟨4, 4⟩
      = .error "E3.1.2" :=
  claim4_allBeatsRemoved [.chord ['A'] [], .sym '=', .sym '='] 4 4
    (by decide) (by decide) (by decide)
    (by
      norm_num [show TimeSignatureValidator.removerCount
        [ChordPosition.chord ['A'] [], ChordPosition.sym '=', ChordPosition.sym '='] = 2 from rfl])

/-! ### Claim C6 -/

/-- C6: a measure with no removers, `P ≥ 1` positions, under numerator
`N ≥ 1`, is accepted by the time-signature validator iff `N % P = 0`; when
`N % P ≠ 0` it fails with `E3.1.1` (DivisionError). -/
theorem claim6_division (m : Measure) (N d : Nat)
    (hnorem : ∀ p ∈ m, p ≠ .sym '=')
    (hP : 0 < m.length) (hN : 0 < N) :
    (TimeSignatureValidator.validate m ⟨N, d⟩ = .ok () ↔ N % m.length = 0)
    ∧ (N % m.length ≠ 0 → TimeSignatureValidator.validate m ⟨N, d⟩ = .error "E3.1.1") := by
  have hzero : TimeSignatureValidator.removerCount m = 0 := by
    simp only [TimeSignatureValidator.removerCount, List.length_eq_zero, List.filter_eq_nil_iff]
    intro p hp
    simpa using hnorem p hp
  have hval : TimeSignatureValidator.validate m ⟨N, d⟩
      = if N % m.length ≠ 0 then .error "E3.1.1" else .ok () := by
    simp only [TimeSignatureValidator.validate, hzero]
    rw [if_neg (by simp)]
    by_cases hmod : N % m.length ≠ 0
    · rw [if_pos hmod, if_pos hmod]
    · rw [if_neg hmod, if_neg hmod]
      rw [if_neg]
      push_cast
      simp only [Nat.cast_zero, zero_mul, sub_zero]
      exact not_le.mpr (by exact_mod_cast hN)
  constructor
  · rw [hval]
    by_cases hmod : N % m.length ≠ 0
    · rw [if_pos hmod]
      simp [hmod]
    · rw [if_neg hmod]
      simp at hmod
      simp [hmod]
  · intro hmod
    rw [hval, if_pos hmod]

/-- Witness for `claim6_division`: 4 chord positions under 4/4 are accepted,
3 chord positions under 4/4 are rejected with `E3.1.1`. -/
theorem claim6_witness :
    TimeSignatureValidator.validate
        [.chord ['A'] [], .chord ['G'] [], .chord ['D'] [], .chord ['E'] []] ⟨4, 4⟩ = .ok ()
    ∧ TimeSignatureValidator.validate
        [.chord ['A'] [], .chord ['G'] [], .chord ['D'] []] ⟨4, 4⟩ = .error "E3.1.1" :=
  ⟨(claim6_division [.chord ['A'] [], .chord ['G'] [], .chord ['D'] [], .chord ['E'] []] 4 4
      (by decide) (by decide) (by decide)).1.mpr (by decide),
   (claim6_division [.chord ['A'] [], .chord ['G'] [], .chord ['D'] []] 4 4
      (by decide) (by decide) (by decide)).2 (by decide)⟩

/-! ### Claim C7 -/

theorem dropWhile_all_false {α : Type} {p : α → Bool} {l : List α}
    (h : ∀ c ∈ l, p c = false) : l.dropWhile p = l := by
  cases l with
  | nil => rfl
  | cons a as => exact List.dropWhile_cons_of_neg (by simp [h a (by simp)])

theorem jsTrim_eq_self {l : List Char} (h : ∀ c ∈ l, isWs c = false) : jsTrim l = l := by
  unfold jsTrim
  rw [dropWhile_all_false h, dropWhile_all_false (by simpa using fun c hc => h c hc),
    List.reverse_reverse]

/-- C7: for a whitespace-free chord token starting with a valid root letter,
after the root and an optional accidental an `m` is consumed into the chord
base iff the character after it is not `a`; the remainder is the extension.
In particular `"Am7"` parses to base `Am`, extension `7`, while `"Amaj7"`
parses to base `A`, extension `maj7`. -/
theorem claim7_minor_marker :
    (∀ (r : Char) (rest : List Char), r ∈ ChordParser.validRoots →
      (∀ c ∈ r :: 'm' :: rest, isWs c = false) →
      ChordParser.parse (r :: 'm' :: rest)
        = .ok (if rest.head? = some 'a' then ([r], 'm' :: rest) else ([r, 'm'], rest)))
    ∧ (∀ (r a : Char) (rest : List Char), r ∈ ChordParser.validRoots →
      a ∈ ChordParser.validAccidentals →
      (∀ c ∈ r :: a :: 'm' :: rest, isWs c = false) →
      ChordParser.parse (r :: a :: 'm' :: rest)
        = .ok (if rest.head? = some 'a' then ([r, a], 'm' :: rest) else ([r, a, 'm'], rest)))
    ∧ ChordParser.parse "Am7".toList = .ok (['A', 'm'], ['7'])
    ∧ ChordParser.parse "Amaj7".toList = .ok (['A'], ['m', 'a', 'j', '7']) := by
  refine ⟨?_, ?_, rfl, rfl⟩
  · intro r rest hr hws
    have ht : jsTrim (r :: 'm' :: rest) = r :: 'm' :: rest := jsTrim_eq_self hws
    simp only [ChordParser.parse, ht]
    rw [if_pos hr]
    have hacc : ('m' ∈ ChordParser.validAccidentals) = False := by
      simp [ChordParser.validAccidentals]
    cases rest with
    | nil => simp [hacc]
    | cons c cs =>
      by_cases hc : c = 'a'
      · subst hc
        simp [hacc]
      · simp [hacc, hc]
  · intro r a rest hr ha hws
    have ht : jsTrim (r :: a :: 'm' :: rest) = r :: a :: 'm' :: rest := jsTrim_eq_self hws
    simp only [ChordParser.parse, ht]
    rw [if_pos hr]
    cases rest with
    | nil => simp [ha]
    | cons c cs =>
      by_cases hc : c = 'a'
      · subst hc
        simp [ha]
      · simp [ha, hc]

/-- Witness for `claim7_minor_marker`: its quantified parts applied at
`"Am7"`, `"Ama"`, and `"F#m7"`. -/
theorem claim7_witness :
    ChordParser.parse ['A', 'm', '7'] = .ok (['A', 'm'], ['7'])
    ∧ ChordParser.parse ['A', 'm', 'a'] = .ok (['A'], ['m', 'a'])
    ∧ ChordParser.parse ['F', '#', 'm', '7'] = .ok (['F', '#', 'm'], ['7']) := by
  refine ⟨?_, ?_, ?_⟩
  · have h := claim7_minor_marker.1 'A' ['7'] (by decide) (by decide)
    simpa using h
  · have h := claim7_minor_marker.1 'A' ['a'] (by decide) (by decide)
    simpa using h
  · have h := claim7_minor_marker.2.1 'F' '#' ['7'] (by decide) (by decide) (by decide)
    simpa using h

/-! ### Claims C8 and C9: pattern optimization -/

namespace PromptItemBuilder

theorem chordPosEq_iff (a b : ChordPosition) : chordPosEq a b = true ↔ a = b := by
  cases a <;> cases b <;> simp [chordPosEq]

theorem measureEq_iff (a b : Measure) : measureEq a b = true ↔ a = b := by
  induction a generalizing b with
  | nil => cases b <;> simp [measureEq]
  | cons x xs ih =>
    cases b with
    | nil => simp [measureEq]
    | cons y ys =>
      have h := ih ys
      simp only [measureEq, List.length_cons, List.zip_cons_cons, List.all_cons,
        Bool.and_eq_true, decide_eq_true_eq] at h ⊢
      constructor
      · rintro ⟨hlen, hxy, hall⟩
        have hx := (chordPosEq_iff x y).mp hxy
        have hrest := h.mp ⟨by omega, hall⟩
        simp [hx, hrest]
      · intro heq
        injection heq with h1 h2
        subst h1
        subst h2
        exact ⟨rfl, (chordPosEq_iff x x).mpr rfl, (h.mpr rfl).2⟩

theorem arraysEqual_iff (a b : List Measure) : arraysEqual a b = true ↔ a = b := by
  induction a generalizing b with
  | nil => cases b <;> simp [arraysEqual]
  | cons x xs ih =>
    cases b with
    | nil => simp [arraysEqual]
    | cons y ys =>
      have h := ih ys
      simp only [arraysEqual, List.length_cons, List.zip_cons_cons, List.all_cons,
        Bool.and_eq_true, decide_eq_true_eq] at h ⊢
      constructor
      · rintro ⟨hlen, hxy, hall⟩
        have hx := (measureEq_iff x y).mp hxy
        have hrest := h.mp ⟨by omega, hall⟩
        simp [hx, hrest]
      · intro heq
        injection heq with h1 h2
        subst h1
        subst h2
        exact ⟨rfl, (measureEq_iff x x).mpr rfl, (h.mpr rfl).2⟩

theorem flatten_replicate_double {α : Type} (r : Nat) (l : List α) :
    (List.replicate (r * 2) l).flatten = (List.replicate r (l ++ l)).flatten := by
  induction r with
  | zero => rfl
  | succ n ih =>
    have h2 : (n + 1) * 2 = (n * 2) + 1 + 1 := by ring
    rw [h2]
    simp only [List.replicate_succ, List.flatten_cons, ih]
    rw [List.append_assoc]

theorem optimizeGo_spec (n : Nat) : ∀ (ms : List Measure), ms.length ≤ n → ∀ (r : Nat),
    (List.replicate (optimizeGo r ms).1 (optimizeGo r ms).2).flatten
        = (List.replicate r ms).flatten
    ∧ ∃ k, (optimizeGo r ms).1 = r * 2 ^ k := by
  induction n with
  | zero =>
    intro ms hlen r
    have : ms = [] := List.length_eq_zero.mp (by omega)
    subst this
    rw [optimizeGo]
    exact ⟨by simp, 0, by simp⟩
  | succ n ih =>
    intro ms hlen r
    rw [optimizeGo]
    by_cases hc : 1 < ms.length ∧ ms.length % 2 = 0
    · rw [if_pos hc]
      by_cases heq : arraysEqual (ms.take (ms.length / 2)) (ms.drop (ms.length / 2)) = true
      · rw [if_pos heq]
        have hth : ms.take (ms.length / 2) = ms.drop (ms.length / 2) :=
          (arraysEqual_iff _ _).mp heq
        have hlen2 : (ms.take (ms.length / 2)).length ≤ n := by
          simp only [List.length_take]
          omega
        obtain ⟨hflat, k, hk⟩ := ih (ms.take (ms.length / 2)) hlen2 (r * 2)
        refine ⟨?_, k + 1, by rw [hk]; ring⟩
        rw [hflat, flatten_replicate_double]
        have : ms.take (ms.length / 2) ++ ms.take (ms.length / 2) = ms := by
          conv_rhs => rw [← List.take_append_drop (ms.length / 2) ms]
          rw [← hth]
        rw [this]
      · rw [if_neg heq]
        exact ⟨rfl, 0, by simp⟩
    · rw [if_neg hc]
      exact ⟨rfl, 0, by simp⟩

end PromptItemBuilder

/-- C8: `optimizePattern` on an already-irreducible measure list — odd
length, or first and second halves not deep-equal — returns multiplier 1 and
the original list unchanged.  (`arraysEqual_iff` shows the source's deep
equality coincides with structural equality of measure lists.) -/
theorem claim8_irreducible_unchanged (ms : List Measure)
    (h : ms.length % 2 = 1 ∨ ms.take (ms.length / 2) ≠ ms.drop (ms.length / 2)) :
    PromptItemBuilder.optimizePattern ms = (1, ms) := by
  unfold PromptItemBuilder.optimizePattern
  rw [PromptItemBuilder.optimizeGo]
  by_cases hc : 1 < ms.length ∧ ms.length % 2 = 0
  · rw [if_pos hc]
    have hne : ms.take (ms.length / 2) ≠ ms.drop (ms.length / 2) := by
      rcases h with hodd | hne
      · omega
      · exact hne
    rw [if_neg (fun hh => hne ((PromptItemBuilder.arraysEqual_iff _ _).mp hh))]
  · rw [if_neg hc]

/-- Witness for `claim8_irreducible_unchanged`: the odd-length list `[[A]]`
and the even-length list `[[A], [G]]` with unequal halves are both returned
unchanged with multiplier 1. -/
theorem claim8_witness :
    PromptItemBuilder.optimizePattern [[.chord ['A'] []]] = (1, [[.chord ['A'] []]])
    ∧ PromptItemBuilder.optimizePattern [[.chord ['A'] []], [.chord ['G'] []]]
        = (1, [[.chord ['A'] []], [.chord ['G'] []]]) :=
  ⟨claim8_irreducible_unchanged [[.chord ['A'] []]] (Or.inl (by decide)),
   claim8_irreducible_unchanged [[.chord ['A'] []], [.chord ['G'] []]] (Or.inr (by decide))⟩

/-- C9: for every input, the `(repeats, pattern)` pair returned by
`optimizePattern` satisfies: concatenating `pattern` `repeats` times yields
the original list (deep equality coincides with equality by
`arraysEqual_iff`), and `repeats` is a power of two. -/
theorem claim9_optimize_roundtrip (ms : List Measure) :
    (List.replicate (PromptItemBuilder.optimizePattern ms).1
        (PromptItemBuilder.optimizePattern ms).2).flatten = ms
    ∧ ∃ k, (PromptItemBuilder.optimizePattern ms).1 = 2 ^ k := by
  unfold PromptItemBuilder.optimizePattern
  obtain ⟨hflat, k, hk⟩ :=
    PromptItemBuilder.optimizeGo_spec ms.length ms le_rfl 1
  refine ⟨?_, k, by simpa using hk⟩
  rw [hflat]
  simp

/-! ### Claim C5 -/

namespace LyricTimingValidator

theorem sumLines_spec (lyrics : List (List Char)) (vals : List Nat)
    (h : List.Forall₂ (fun l n => timingMatch l = some n ∧ 0 < n) lyrics vals) :
    ∀ acc, sumLines acc lyrics = .ok (acc + vals.sum) := by
  induction h with
  | nil => intro acc; simp [sumLines]
  | cons hln hrest ih =>
    intro acc
    obtain ⟨hm, hpos⟩ := hln
    simp only [sumLines, hm]
    rw [if_neg (by omega)]
    rw [ih (acc + _)]
    congr 1
    simp [List.sum_cons]
    omega

end LyricTimingValidator

/-- C5: for a section with at least one lyric line, whose lines all carry a
valid positive `_N` timing marker (related to their values by `Forall₂`),
the expected measure count equals
`patternMeasures × repeat − cutStart-term − cutEnd-term + before + after`
(missing modifiers defaulting to `repeat = 1` and `0` cuts/before/after,
with each cut term `measures + 1` when its `beats > 0`), and lyric-timing
validation succeeds iff the timing values sum to exactly that count, failing
with `E3.4.4` (TimingMismatch) otherwise. -/
theorem claim5_section_budget (pm : Nat) (rep : Option Nat) (cs ce : Option (Nat × Nat))
    (bm am : Nat) (lyrics : List (List Char)) (vals : List Nat)
    (hrep : rep ≠ some 0)
    (hlv : List.Forall₂
      (fun l n => LyricTimingValidator.timingMatch l = some n ∧ 0 < n) lyrics vals)
    (hne : lyrics ≠ []) :
    SongCodeConverter.sectionFinalMeasures pm rep cs ce bm am
      = (pm : Int) * (rep.getD 1 : Nat) - SongCodeConverter.cutTerm cs
          - SongCodeConverter.cutTerm ce + bm + am
    ∧ (LyricTimingValidator.validate lyrics
          (SongCodeConverter.sectionFinalMeasures pm rep cs ce bm am) = .ok ()
        ↔ (vals.sum : Int) = SongCodeConverter.sectionFinalMeasures pm rep cs ce bm am)
    ∧ ((vals.sum : Int) ≠ SongCodeConverter.sectionFinalMeasures pm rep cs ce bm am →
        LyricTimingValidator.validate lyrics
          (SongCodeConverter.sectionFinalMeasures pm rep cs ce bm am) = .error "E3.4.4") := by
  have hsum := LyricTimingValidator.sumLines_spec lyrics vals hlv 0
  have hval : ∀ t : Int, LyricTimingValidator.validate lyrics t
      = if (vals.sum : Int) ≠ t then .error "E3.4.4" else .ok () := by
    intro t
    unfold LyricTimingValidator.validate
    rw [hsum]
    simp [Bind.bind, Except.bind]
  refine ⟨?_, ?_, ?_⟩
  · unfold SongCodeConverter.sectionFinalMeasures
    rcases rep with _ | r
    · rcases cs with _ | ⟨m1, b1⟩ <;> rcases ce with _ | ⟨m2, b2⟩ <;>
        simp [SongCodeConverter.cutTerm] <;> ring
    · have hr : r ≠ 0 := fun hh => hrep (by rw [hh])
      rcases cs with _ | ⟨m1, b1⟩ <;> rcases ce with _ | ⟨m2, b2⟩ <;>
        simp [SongCodeConverter.cutTerm, hr] <;> ring
  · rw [hval]
    by_cases hs : (vals.sum : Int) ≠ SongCodeConverter.sectionFinalMeasures pm rep cs ce bm am
    · rw [if_pos hs]
      exact iff_of_false (by simp) hs
    · rw [if_neg hs]
      exact iff_of_true rfl (not_not.mp hs)
  · intro hs
    rw [hval, if_pos hs]

/-- Witness for `claim5_section_budget`: pattern measures 4, `_repeat 2`,
`cutEnd = (1, 0)` give a final count of 7; lyric sets summing to 7 pass,
those summing to 6 or 8 fail with `E3.4.4`. -/
theorem claim5_witness :
    SongCodeConverter.sectionFinalMeasures 4 (some 2) none (some (1, 0)) 0 0 = 7
    ∧ LyricTimingValidator.validate ["la_3".toList, "bla_4".toList]
        (SongCodeConverter.sectionFinalMeasures 4 (some 2) none (some (1, 0)) 0 0) = .ok ()
    ∧ LyricTimingValidator.validate ["la_3".toList, "bla_3".toList]
        (SongCodeConverter.sectionFinalMeasures 4 (some 2) none (some (1, 0)) 0 0)
        = .error "E3.4.4"
    ∧ LyricTimingValidator.validate ["la_3".toList, "bla_5".toList]
        (SongCodeConverter.sectionFinalMeasures 4 (some 2) none (some (1, 0)) 0 0)
        = .error "E3.4.4" := by
  have hf7 : List.Forall₂
      (fun l n => LyricTimingValidator.timingMatch l = some n ∧ 0 < n)
      ["la_3".toList, "bla_4".toList] [3, 4] := by
    refine List.Forall₂.cons ⟨?_, ?_⟩ (List.Forall₂.cons ⟨?_, ?_⟩ List.Forall₂.nil) <;> decide
  have hf6 : List.Forall₂
      (fun l n => LyricTimingValidator.timingMatch l = some n ∧ 0 < n)
      ["la_3".toList, "bla_3".toList] [3, 3] := by
    refine List.Forall₂.cons ⟨?_, ?_⟩ (List.Forall₂.cons ⟨?_, ?_⟩ List.Forall₂.nil) <;> decide
  have hf8 : List.Forall₂
      (fun l n => LyricTimingValidator.timingMatch l = some n ∧ 0 < n)
      ["la_3".toList, "bla_5".toList] [3, 5] := by
    refine List.Forall₂.cons ⟨?_, ?_⟩ (List.Forall₂.cons ⟨?_, ?_⟩ List.Forall₂.nil) <;> decide
  have h7 := claim5_section_budget 4 (some 2) none (some (1, 0)) 0 0
    ["la_3".toList, "bla_4".toList] [3, 4] (by decide) hf7 (by decide)
  have h6 := claim5_section_budget 4 (some 2) none (some (1, 0)) 0 0
    ["la_3".toList, "bla_3".toList] [3, 3] (by decide) hf6 (by decide)
  have h8 := claim5_section_budget 4 (some 2) none (some (1, 0)) 0 0
    ["la_3".toList, "bla_5".toList] [3, 5] (by decide) hf8 (by decide)
  exact ⟨by decide, h7.2.1.mpr (by decide), h6.2.2 (by decide), h8.2.2 (by decide)⟩
